import Mathlib

/-! Verification development for the hierarchical-state-machine code
generator.  Python strings are modelled as lists of characters, paths as
lists of such strings.  The definitions below are translated from
`codegen/common.py`, `codegen/base_lang.py`, `codegen/rust_lang.py` and
`sm-compiler.py`.  Machine-level concerns (process exit, file writes)
are modelled by `Except` results where they matter. -/

/-- Python strings are modelled as lists of characters. -/
abbrev Str := List Char

/-- Python `s.split(sep)` for a one-character separator: splits at every
occurrence, keeps empty pieces, and the empty string yields `[[]]`. -/
def splitOnChar (sep : Char) : Str → List Str
  | [] => [[]]
  | c :: rest =>
    match splitOnChar sep rest with
    | [] => [[]]
    | p :: ps => if c = sep then [] :: p :: ps else (c :: p) :: ps

/-- Boolean prefix test, Python `s.startswith(p)` with the pattern first. -/
def startsWithS : Str → Str → Bool
  | [], _ => true
  | _ :: _, [] => false
  | p :: ps, c :: cs => p = c && startsWithS ps cs

/-- Removes a trailing run of the character `c`, the right half of
Python `s.strip("/")`. -/
def rstripChar (c : Char) : Str → Str
  | [] => []
  | x :: xs =>
    match rstripChar c xs with
    | [] => if x = c then [] else [x]
    | r => x :: r

/-- Python `s.strip("/")` specialised to one strip character: drops the
leading and the trailing run of that character. -/
def stripChar (c : Char) (s : Str) : Str :=
  rstripChar c (s.dropWhile (fun x => x = c))

/-- Python `target_str.replace("../", "")`: removes every (left-to-right,
non-overlapping) occurrence of the three characters `../`. -/
def replaceDotDotSlash : Str → Str
  | '.' :: '.' :: '/' :: rest => replaceDotDotSlash rest
  | c :: rest => c :: replaceDotDotSlash rest
  | [] => []

/-- The sentinel path segment `root`. -/
def rootSeg : Str := "root".toList

/-- Translation of `resolve_target_path` (codegen/common.py, lines 12-40).
Branch order follows the source: empty target, absolute `/...`, legacy
absolute `root/...`, parent relative `../`, current/child relative `./`,
and the sibling default. -/
def resolve_target_path (current_path : List Str) (target_str : Str) : List Str :=
  if target_str = [] then current_path
  else if startsWithS ("/".toList) target_str then
    let parts := splitOnChar '/' (stripChar '/' target_str)
    if parts.headD [] ≠ rootSeg then rootSeg :: parts else parts
  else if startsWithS ("root/".toList) target_str then
    splitOnChar '/' target_str
  else if startsWithS ("../".toList) target_str then
    current_path.dropLast.dropLast ++ splitOnChar '/' (replaceDotDotSlash target_str)
  else if startsWithS ("./".toList) target_str then
    if target_str = "./".toList ∨ target_str = ".".toList then current_path
    else current_path ++ splitOnChar '/' (target_str.drop 2)
  else
    current_path.dropLast ++ splitOnChar '/' target_str

/-- Length of the longest common prefix of two paths; this is the value
the `while` loop of `get_lca_index` computes before the equal-path
adjustment. -/
def commonPrefixLen : List Str → List Str → Nat
  | a :: as_, b :: bs => if a = b then commonPrefixLen as_ bs + 1 else 0
  | _, _ => 0

/-- Translation of `get_lca_index` (codegen/common.py, lines 67-76).
The subtraction is on `Nat`; it matches the Python `int` arithmetic on
all nonempty paths (the decrement only fires when both paths are equal,
hence nonempty in every call the generator makes). -/
def get_lca_index (source_path target_path : List Str) : Nat :=
  let k := commonPrefixLen source_path target_path
  if k = source_path.length ∧ k = target_path.length then k - 1 else k

/-- Translation of `get_exit_sequence` (codegen/common.py, lines 78-85):
the Python loop runs `i` from `len(source_path) - 1` down to the LCA
index inclusive and formats `source_path[:i+1]`. -/
def get_exit_sequence (source_path target_path : List Str) (func_formatter : List Str → α) :
    List α :=
  let lca_index := get_lca_index source_path target_path
  ((List.range' lca_index (source_path.length - lca_index)).reverse).map
    (fun i => func_formatter (source_path.take (i + 1)))

/-- Suffix `_entry` used for the last (full) entry call. -/
def entrySuffix : Str := "_entry".toList

/-- Suffix `_start` used for the shallow entry calls. -/
def startSuffix : Str := "_start".toList

/-- Translation of `get_entry_sequence` (codegen/common.py, lines 87-98):
adjusts the LCA index when it equals `len(target_path)`, then formats
`target_path[:i+1]` for `i` from the (adjusted) LCA index up to
`len(target_path) - 1`, with `_entry` for the last and `_start` otherwise. -/
def get_entry_sequence (source_path target_path : List Str)
    (func_formatter : List Str → Str → α) : List α :=
  let lca0 := get_lca_index source_path target_path
  let lca_index := if lca0 = target_path.length then lca0 - 1 else lca0
  (List.range' lca_index (target_path.length - lca_index)).map
    (fun i => func_formatter (target_path.take (i + 1))
      (if i = target_path.length - 1 then entrySuffix else startSuffix))

/-- Translation of `flatten_name` (codegen/common.py, line 4) at the
separator `_` the generators pass. -/
def flatten_name (path : List Str) : Str :=
  List.intercalate ("_".toList) path

/-! Helper lemmas about the path algebra. -/

lemma commonPrefixLen_comm : ∀ a b : List Str, commonPrefixLen a b = commonPrefixLen b a
  | [], [] => rfl
  | [], _ :: _ => rfl
  | _ :: _, [] => rfl
  | a :: as_, b :: bs => by
    by_cases h : a = b
    · subst h
      simp [commonPrefixLen, commonPrefixLen_comm as_ bs]
    · have h' : ¬b = a := fun hb => h hb.symm
      simp [commonPrefixLen, h, h']

lemma commonPrefixLen_self : ∀ a : List Str, commonPrefixLen a a = a.length
  | [] => rfl
  | a :: as_ => by simp [commonPrefixLen, commonPrefixLen_self as_]

lemma commonPrefixLen_le_left : ∀ a b : List Str, commonPrefixLen a b ≤ a.length
  | [], _ => Nat.le_refl 0
  | _ :: _, [] => Nat.zero_le _
  | a :: as_, b :: bs => by
    by_cases h : a = b
    · simpa [commonPrefixLen, h] using commonPrefixLen_le_left as_ bs
    · simp [commonPrefixLen, h]

lemma commonPrefixLen_le_right (a b : List Str) : commonPrefixLen a b ≤ b.length := by
  rw [commonPrefixLen_comm]
  exact commonPrefixLen_le_left b a

lemma take_commonPrefixLen_eq : ∀ a b : List Str,
    a.take (commonPrefixLen a b) = b.take (commonPrefixLen a b)
  | [], [] => rfl
  | [], _ :: _ => rfl
  | _ :: _, [] => rfl
  | a :: as_, b :: bs => by
    by_cases h : a = b
    · subst h
      simp [commonPrefixLen, take_commonPrefixLen_eq as_ bs]
    · simp [commonPrefixLen, h]

lemma get_lca_index_le (a b : List Str) : get_lca_index a b ≤ commonPrefixLen a b := by
  show (if commonPrefixLen a b = a.length ∧ commonPrefixLen a b = b.length
        then commonPrefixLen a b - 1 else commonPrefixLen a b) ≤ commonPrefixLen a b
  split
  · exact Nat.sub_le _ _
  · exact Nat.le_refl _

lemma map_range'_succ_shift {α : Type} (f : Nat → α) :
    ∀ (n s : Nat), (List.range' (s + 1) n).map f = (List.range' s n).map (fun i => f (i + 1))
  | 0, _ => rfl
  | n + 1, s => by
    show f (s + 1) :: (List.range' (s + 1 + 1) n).map f
        = f (s + 1) :: (List.range' (s + 1) n).map (fun i => f (i + 1))
    rw [map_range'_succ_shift f n (s + 1)]

/-- C3: `get_lca_index` is symmetric, the first `get_lca_index a b` segments of
`a` and `b` coincide, and on equal paths it returns `len(a) - 1`. -/
theorem lca_index_symm_prefix_self (a b : List Str) :
    get_lca_index a b = get_lca_index b a
      ∧ a.take (get_lca_index a b) = b.take (get_lca_index a b)
      ∧ get_lca_index a a = a.length - 1 := by
  refine ⟨?_, ?_, ?_⟩
  · unfold get_lca_index
    rw [commonPrefixLen_comm a b]
    by_cases h : commonPrefixLen b a = b.length ∧ commonPrefixLen b a = a.length
    · rw [if_pos ⟨h.2, h.1⟩, if_pos h]
    · rw [if_neg (fun hc => h ⟨hc.2, hc.1⟩), if_neg h]
  · have hm := take_commonPrefixLen_eq a b
    have hk : get_lca_index a b ≤ commonPrefixLen a b := get_lca_index_le a b
    calc a.take (get_lca_index a b)
        = (a.take (commonPrefixLen a b)).take (get_lca_index a b) := by
          rw [List.take_take, Nat.min_eq_left hk]
      _ = (b.take (commonPrefixLen a b)).take (get_lca_index a b) := by rw [hm]
      _ = b.take (get_lca_index a b) := by rw [List.take_take, Nat.min_eq_left hk]
  · unfold get_lca_index
    rw [commonPrefixLen_self a, if_pos ⟨rfl, rfl⟩]

/-- C4: the exit sequence formats the prefixes of `src` of lengths
`len(src)` down to `LCA+1`; the entry sequence formats the prefixes of `dst`
of lengths `LCA'+1` up to `len(dst)` (with `LCA'` the LCA index lowered to
`len(dst) - 1` when it equals `len(dst)`), using the `_start` suffix for every
element except the last, which uses `_entry`. -/
theorem exit_entry_sequence_prefix_form {α β : Type} (src dst : List Str)
    (f : List Str → α) (g : List Str → Str → β) (hs : src ≠ []) (hd : dst ≠ []) :
    get_exit_sequence src dst f
        = ((List.range' (get_lca_index src dst + 1) (src.length - get_lca_index src dst)).reverse).map
            (fun n => f (src.take n))
      ∧ get_entry_sequence src dst g
        = (List.range'
              ((if get_lca_index src dst = dst.length then dst.length - 1
                else get_lca_index src dst) + 1)
              (dst.length -
                (if get_lca_index src dst = dst.length then dst.length - 1
                 else get_lca_index src dst))).map
            (fun n => g (dst.take n) (if n = dst.length then entrySuffix else startSuffix)) := by
  constructor
  · unfold get_exit_sequence
    rw [List.map_reverse, List.map_reverse, map_range'_succ_shift]
  · have hlen : 1 ≤ dst.length := by
      cases dst with
      | nil => exact absurd rfl hd
      | cons x xs => exact Nat.succ_le_succ (Nat.zero_le _)
    simp only [get_entry_sequence]
    by_cases hc : get_lca_index src dst = dst.length
    · rw [hc, if_pos rfl, map_range'_succ_shift]
      exact List.map_congr_left (fun i _ => congrArg _ (if_congr (by omega) rfl rfl))
    · rw [if_neg hc, if_neg hc, map_range'_succ_shift]
      exact List.map_congr_left (fun i _ => congrArg _ (if_congr (by omega) rfl rfl))

/-- Witness for `exit_entry_sequence_prefix_form` at concrete paths. -/
theorem exit_entry_sequence_prefix_form_inst :
    get_exit_sequence [rootSeg, "a".toList, "b".toList] [rootSeg, "c".toList] (fun p => p.length)
        = ((List.range'
              (get_lca_index [rootSeg, "a".toList, "b".toList] [rootSeg, "c".toList] + 1)
              (3 - get_lca_index [rootSeg, "a".toList, "b".toList] [rootSeg, "c".toList])).reverse).map
            (fun n => ([rootSeg, "a".toList, "b".toList].take n).length)
      ∧ get_entry_sequence [rootSeg, "a".toList, "b".toList] [rootSeg, "c".toList]
            (fun p _ => p.length)
        = (List.range'
              ((if get_lca_index [rootSeg, "a".toList, "b".toList] [rootSeg, "c".toList] = 2
                then 2 - 1
                else get_lca_index [rootSeg, "a".toList, "b".toList] [rootSeg, "c".toList]) + 1)
              (2 -
                (if get_lca_index [rootSeg, "a".toList, "b".toList] [rootSeg, "c".toList] = 2
                 then 2 - 1
                 else get_lca_index [rootSeg, "a".toList, "b".toList] [rootSeg, "c".toList]))).map
            (fun n => (([rootSeg, "c".toList].take n).length)) :=
  exit_entry_sequence_prefix_form [rootSeg, "a".toList, "b".toList] [rootSeg, "c".toList]
    (fun p => p.length) (fun p _ => p.length) (by decide) (by decide)

lemma splitOnChar_cons (ch c : Char) (rest : Str) :
    splitOnChar ch (c :: rest) =
      match splitOnChar ch rest with
      | [] => [[]]
      | p :: ps => if c = ch then [] :: p :: ps else (c :: p) :: ps := rfl

lemma rstripChar_cons (ch x : Char) (xs : Str) :
    rstripChar ch (x :: xs) =
      match rstripChar ch xs with
      | [] => if x = ch then [] else [x]
      | r => x :: r := rfl

lemma splitOnChar_ne_nil (ch : Char) : ∀ s : Str, splitOnChar ch s ≠ []
  | [] => by simp [splitOnChar]
  | c :: rest => by
    have h := splitOnChar_ne_nil ch rest
    rw [splitOnChar_cons]
    cases hm : splitOnChar ch rest with
    | nil => exact absurd hm h
    | cons p ps =>
      dsimp only
      split <;> simp

lemma splitOnChar_no_occ (ch : Char) : ∀ s : Str, ch ∉ s → splitOnChar ch s = [s]
  | [], _ => rfl
  | c :: rest, h => by
    have hc : ¬c = ch := fun hx => h (hx ▸ List.mem_cons_self c rest)
    have hr := splitOnChar_no_occ ch rest (fun hx => h (List.mem_cons_of_mem c hx))
    rw [splitOnChar_cons, hr]
    dsimp only
    rw [if_neg hc]

lemma splitOnChar_append_sep (ch : Char) :
    ∀ xs ys : Str, ch ∉ xs → splitOnChar ch (xs ++ ch :: ys) = xs :: splitOnChar ch ys
  | [], ys, _ => by
    show splitOnChar ch (ch :: ys) = [] :: splitOnChar ch ys
    rw [splitOnChar_cons]
    cases hm : splitOnChar ch ys with
    | nil => exact absurd hm (splitOnChar_ne_nil ch ys)
    | cons p ps =>
      dsimp only
      rw [if_pos rfl]
  | x :: xs, ys, h => by
    have hx : ¬x = ch := fun he => h (he ▸ List.mem_cons_self x xs)
    have hr := splitOnChar_append_sep ch xs ys (fun he => h (List.mem_cons_of_mem x he))
    show splitOnChar ch (x :: (xs ++ ch :: ys)) = (x :: xs) :: splitOnChar ch ys
    rw [splitOnChar_cons, hr]
    dsimp only
    rw [if_neg hx]

lemma rstripChar_no_occ (ch : Char) : ∀ s : Str, ch ∉ s → rstripChar ch s = s
  | [], _ => rfl
  | x :: xs, h => by
    have hx : ¬x = ch := fun he => h (he ▸ List.mem_cons_self x xs)
    have hr := rstripChar_no_occ ch xs (fun he => h (List.mem_cons_of_mem x he))
    rw [rstripChar_cons, hr]
    cases xs with
    | nil =>
      dsimp only
      rw [if_neg hx]
    | cons y ys => rfl

lemma rstripChar_append_no (ch : Char) (ys : Str) (hy : ch ∉ ys) (hne : ys ≠ []) :
    ∀ xs : Str, rstripChar ch (xs ++ ys) = xs ++ ys
  | [] => by simpa using rstripChar_no_occ ch ys hy
  | x :: xs => by
    have hr := rstripChar_append_no ch ys hy hne xs
    show rstripChar ch (x :: (xs ++ ys)) = x :: (xs ++ ys)
    rw [rstripChar_cons, hr]
    cases hm : xs ++ ys with
    | nil => exact absurd (List.append_eq_nil.mp hm).2 hne
    | cons z zs => rfl

lemma startsWithS_eq_true_iff : ∀ p s : Str, startsWithS p s = true ↔ ∃ t, s = p ++ t
  | [], s => by simp [startsWithS]
  | p :: ps, [] => by simp [startsWithS]
  | p :: ps, c :: cs => by
    rw [startsWithS]
    constructor
    · intro h
      have hpc : p = c := by
        by_contra hne
        simp [hne] at h
      have h2 : startsWithS ps cs = true := by
        subst hpc
        simpa using h
      obtain ⟨t, ht⟩ := (startsWithS_eq_true_iff ps cs).1 h2
      exact ⟨t, by simp [hpc, ht]⟩
    · rintro ⟨t, ht⟩
      have hpc : c = p := by
        have := congrArg (fun l => List.headD l ' ') ht
        simpa using this
      have hcs : cs = ps ++ t := by
        have := congrArg List.tail ht
        simpa using this
      subst hpc
      simp [(startsWithS_eq_true_iff ps cs).2 ⟨t, hcs⟩]

/-- C7: the `./` spelling of the self-relative target resolves to the current
path unchanged, but the bare `.` spelling does not: it falls through to the
sibling-default branch (the `target_str == "."` comparison in the source sits
inside the unreachable `startswith("./")` guard), producing
`current_path[:-1] + ['.']` — here `["root", "."]` instead of `["root", "a"]`. -/
theorem resolve_dot_forms_eval :
    (∀ p : List Str, resolve_target_path p ("./".toList) = p)
      ∧ resolve_target_path [rootSeg, "a".toList] (".".toList)
          = [rootSeg, ".".toList] := by
  constructor
  · intro p
    rfl
  · rfl

/-- C8: for nonempty, distinct source and destination paths the exit and
entry sequences together contain at least one call. -/
theorem transition_sequences_nonempty {α β : Type} (src dst : List Str)
    (f : List Str → α) (g : List Str → Str → β)
    (hs : src ≠ []) (hd : dst ≠ []) (hne : src ≠ dst) :
    1 ≤ (get_exit_sequence src dst f).length + (get_entry_sequence src dst g).length := by
  have hklel : commonPrefixLen src dst ≤ src.length := commonPrefixLen_le_left src dst
  have hkler : commonPrefixLen src dst ≤ dst.length := commonPrefixLen_le_right src dst
  have hexit : (get_exit_sequence src dst f).length = src.length - get_lca_index src dst := by
    simp [get_exit_sequence]
  have hentry : (get_entry_sequence src dst g).length
      = dst.length - (if get_lca_index src dst = dst.length
          then get_lca_index src dst - 1 else get_lca_index src dst) := by
    simp [get_entry_sequence]
  rw [hexit, hentry]
  by_cases hk : commonPrefixLen src dst < src.length
  · have hle : get_lca_index src dst ≤ commonPrefixLen src dst := get_lca_index_le src dst
    omega
  · have hkeq : commonPrefixLen src dst = src.length := Nat.le_antisymm hklel (Nat.not_lt.mp hk)
    have hsrc_take : src.take (commonPrefixLen src dst) = src := by
      rw [hkeq]
      exact List.take_length src
    have htake := take_commonPrefixLen_eq src dst
    have hkd : commonPrefixLen src dst ≠ dst.length := by
      intro hdl
      apply hne
      rw [← hsrc_take, htake, hdl]
      exact List.take_length dst
    have hkd' : commonPrefixLen src dst < dst.length := Nat.lt_of_le_of_ne hkler hkd
    have hlca : get_lca_index src dst = commonPrefixLen src dst := by
      show (if commonPrefixLen src dst = src.length ∧ commonPrefixLen src dst = dst.length
            then commonPrefixLen src dst - 1 else commonPrefixLen src dst)
          = commonPrefixLen src dst
      rw [if_neg (fun hc => hkd hc.2)]
    rw [hlca, if_neg hkd]
    omega

/-- Witness for `transition_sequences_nonempty` at concrete paths. -/
theorem transition_sequences_nonempty_inst :
    1 ≤ (get_exit_sequence [rootSeg, "a".toList] [rootSeg] (fun p => p.length)).length
        + (get_entry_sequence [rootSeg, "a".toList] [rootSeg] (fun p _ => p.length)).length :=
  transition_sequences_nonempty [rootSeg, "a".toList] [rootSeg]
    (fun p => p.length) (fun p _ => p.length) (by decide) (by decide) (by decide)

lemma resolve_slash_branch (c : List Str) (t : Str) :
    resolve_target_path c ('/' :: t) =
      (if (splitOnChar '/' (stripChar '/' ('/' :: t))).headD [] ≠ rootSeg
       then rootSeg :: splitOnChar '/' (stripChar '/' ('/' :: t))
       else splitOnChar '/' (stripChar '/' ('/' :: t))) := rfl

lemma resolve_rootslash_branch (c : List Str) (t : Str) :
    resolve_target_path c ('r' :: 'o' :: 'o' :: 't' :: '/' :: t)
      = splitOnChar '/' ('r' :: 'o' :: 'o' :: 't' :: '/' :: t) := rfl

/-- C10: absolute target specs (leading `/` or leading `root/`) resolve
independently of the current path, and the three spellings `/a/b`,
`/root/a/b` and `root/a/b` of an absolute path all resolve to
`[root, a, b]`, with a single leading sentinel segment (`a ≠ root`). -/
theorem absolute_target_ignores_current :
    (∀ (c1 c2 : List Str) (s : Str),
        startsWithS ("/".toList) s = true ∨ startsWithS ("root/".toList) s = true →
        resolve_target_path c1 s = resolve_target_path c2 s)
      ∧ (∀ (c : List Str) (a b : Str), '/' ∉ a → '/' ∉ b → a ≠ [] → b ≠ [] → a ≠ rootSeg →
          resolve_target_path c ("/".toList ++ a ++ "/".toList ++ b) = [rootSeg, a, b]
            ∧ resolve_target_path c ("/root/".toList ++ a ++ "/".toList ++ b)
                = [rootSeg, a, b]
            ∧ resolve_target_path c ("root/".toList ++ a ++ "/".toList ++ b)
                = [rootSeg, a, b]) := by
  constructor
  · intro c1 c2 s h
    rcases h with h | h
    · obtain ⟨t, rfl⟩ := (startsWithS_eq_true_iff _ s).1 h
      rfl
    · obtain ⟨t, rfl⟩ := (startsWithS_eq_true_iff _ s).1 h
      rfl
  · intro c a b ha hb hane hbne har
    obtain ⟨a0, a', rfl⟩ : ∃ a0 a', a = a0 :: a' := by
      cases a with
      | nil => exact absurd rfl hane
      | cons x xs => exact ⟨x, xs, rfl⟩
    have ha0 : ¬a0 = '/' := fun he => ha (he ▸ List.mem_cons_self a0 a')
    have hroot : '/' ∉ rootSeg := by decide
    have hsplit_ab : splitOnChar '/' ((a0 :: a') ++ '/' :: b) = [a0 :: a', b] := by
      rw [splitOnChar_append_sep '/' (a0 :: a') b ha, splitOnChar_no_occ '/' b hb]
    have hstrip_tail : rstripChar '/' ((a0 :: a') ++ '/' :: b) = (a0 :: a') ++ '/' :: b := by
      have h1 : (a0 :: a') ++ '/' :: b = ((a0 :: a') ++ ['/']) ++ b := by simp
      rw [h1, rstripChar_append_no '/' b hb hbne]
    refine ⟨?_, ?_, ?_⟩
    · have hform : "/".toList ++ (a0 :: a') ++ "/".toList ++ b
          = '/' :: ((a0 :: a') ++ '/' :: b) := by simp
      rw [hform, resolve_slash_branch]
      have hstrip : stripChar '/' ('/' :: ((a0 :: a') ++ '/' :: b))
          = (a0 :: a') ++ '/' :: b := by
        show rstripChar '/' (List.dropWhile (fun x => x = '/')
              ('/' :: ((a0 :: a') ++ '/' :: b))) = (a0 :: a') ++ '/' :: b
        rw [show ((a0 :: a') ++ '/' :: b) = a0 :: (a' ++ '/' :: b) from rfl]
        rw [List.dropWhile_cons, if_pos (by simp), List.dropWhile_cons, if_neg (by simp [ha0])]
        show rstripChar '/' ((a0 :: a') ++ '/' :: b) = (a0 :: a') ++ '/' :: b
        exact hstrip_tail
      rw [hstrip, hsplit_ab]
      rw [if_pos (by simpa using har)]
    · have hform : "/root/".toList ++ (a0 :: a') ++ "/".toList ++ b
          = '/' :: ('r' :: 'o' :: 'o' :: 't' :: '/' :: ((a0 :: a') ++ '/' :: b)) := by simp
      rw [hform, resolve_slash_branch]
      have hstrip : stripChar '/' ('/' :: ('r' :: 'o' :: 'o' :: 't' :: '/' ::
              ((a0 :: a') ++ '/' :: b)))
          = 'r' :: 'o' :: 'o' :: 't' :: '/' :: ((a0 :: a') ++ '/' :: b) := by
        show rstripChar '/' (List.dropWhile (fun x => x = '/')
              ('/' :: ('r' :: 'o' :: 'o' :: 't' :: '/' :: ((a0 :: a') ++ '/' :: b))))
            = 'r' :: 'o' :: 'o' :: 't' :: '/' :: ((a0 :: a') ++ '/' :: b)
        rw [List.dropWhile_cons, if_pos (by simp), List.dropWhile_cons, if_neg (by simp)]
        have h1 : 'r' :: 'o' :: 'o' :: 't' :: '/' :: ((a0 :: a') ++ '/' :: b)
            = (('r' :: 'o' :: 'o' :: 't' :: '/' :: (a0 :: a')) ++ ['/']) ++ b := by simp
        rw [h1, rstripChar_append_no '/' b hb hbne]
      rw [hstrip]
      have hsplit : splitOnChar '/' ('r' :: 'o' :: 'o' :: 't' :: '/' ::
              ((a0 :: a') ++ '/' :: b)) = [rootSeg, a0 :: a', b] := by
        have h1 : 'r' :: 'o' :: 'o' :: 't' :: '/' :: ((a0 :: a') ++ '/' :: b)
            = rootSeg ++ '/' :: ((a0 :: a') ++ '/' :: b) := rfl
        rw [h1, splitOnChar_append_sep '/' rootSeg _ hroot, hsplit_ab]
      rw [hsplit, if_neg (by simp)]
    · have hform : "root/".toList ++ (a0 :: a') ++ "/".toList ++ b
          = 'r' :: 'o' :: 'o' :: 't' :: '/' :: ((a0 :: a') ++ '/' :: b) := by simp
      rw [hform, resolve_rootslash_branch]
      have h1 : 'r' :: 'o' :: 'o' :: 't' :: '/' :: ((a0 :: a') ++ '/' :: b)
          = rootSeg ++ '/' :: ((a0 :: a') ++ '/' :: b) := rfl
      rw [h1, splitOnChar_append_sep '/' rootSeg _ hroot, hsplit_ab]

/-- Witness for `absolute_target_ignores_current` at concrete inputs. -/
theorem absolute_target_ignores_current_inst :
    resolve_target_path [rootSeg, "x".toList] ("/a/b".toList)
        = resolve_target_path [] ("/a/b".toList)
      ∧ resolve_target_path [] ("/".toList ++ "a".toList ++ "/".toList ++ "b".toList)
          = [rootSeg, "a".toList, "b".toList] :=
  ⟨absolute_target_ignores_current.1 [rootSeg, "x".toList] [] ("/a/b".toList)
      (Or.inl (by decide)),
   (absolute_target_ignores_current.2 [] ("a".toList) ("b".toList)
      (by decide) (by decide) (by decide) (by decide) (by decide)).1⟩

/-! Embedding of the transition emitter (codegen/base_lang.py lines 68-253 and
codegen/rust_lang.py lines 265-453).  Emitted code is a `Str`; the pieces are
split into helper definitions that concatenate exactly as the Python string
appends do. -/

/-- Guard values: Python's `True`/`False` literals or an opaque expression
string (the `else: str(test_val)` branch). -/
inductive GuardVal where
  | b (v : Bool)
  | expr (s : Str)
deriving DecidableEq

/-- A transition record; `to` is `none` for an absent or null target,
`guard` is `none` when the key is absent (Python default `True`). -/
structure Transition where
  to_ : Option Str := none
  guard : Option GuardVal := none
  action : Option Str := none
deriving DecidableEq

/-- A state node of the model tree: `initial`, the `orthogonal` flag and the
optional `states` child map (an association list preserving insertion order).
Only the fields the emitter reads are modelled. -/
inductive StateNode where
  | mk : Option Str → Bool → Option (List (Str × StateNode)) → StateNode

/-- The `initial` field. -/
def StateNode.initial : StateNode → Option Str
  | .mk i _ _ => i

/-- The `orthogonal` flag (`data.get('orthogonal', False)`). -/
def StateNode.orthogonal : StateNode → Bool
  | .mk _ o _ => o

/-- The optional `states` map (`'states' in data` is `isSome`). -/
def StateNode.states : StateNode → Option (List (Str × StateNode))
  | .mk _ _ s => s

/-- Ordered dictionary lookup (Python `part in d` / `d[part]`). -/
def lookupAssoc : List (Str × α) → Str → Option α
  | [], _ => none
  | (k, v) :: rest, key => if k = key then some v else lookupAssoc rest key

/-- Generator state shared by the emitter: the model tree (`self.data`), the
flattened decision namespace (`self.decisions`) and the transition hook text
(`self.hooks.get('transition', '')`). -/
structure GenEnv where
  data : StateNode
  decisions : List (Str × List Transition)
  hookTransition : Str

/-- Translation of `resolve_state_data` (codegen/common.py, lines 42-53):
the synthetic starting node carries `root.get('states', {})` (hence always a
present map) and no `orthogonal` flag. -/
def walkStates : StateNode → List Str → Option StateNode
  | cur, [] => some cur
  | cur, p :: rest =>
    match cur.states with
    | none => none
    | some m =>
      match lookupAssoc m p with
      | none => none
      | some child => walkStates child rest

/-- See `walkStates`; handles the `['root']` shortcut and the optional
leading `root` segment. -/
def resolve_state_data (root : StateNode) (path_parts : List Str) : Option StateNode :=
  if path_parts = [rootSeg] then some root
  else
    let rest := if path_parts.head? = some rootSeg then path_parts.tail else path_parts
    walkStates (StateNode.mk root.initial false (some (root.states.getD []))) rest

/-- Python `str.strip()` (whitespace at both ends), used on fork branches. -/
def pyStripWs (s : Str) : Str :=
  ((s.dropWhile Char.isWhitespace).reverse.dropWhile Char.isWhitespace).reverse

/-- The split position for the fork regex `(.*)/\[(.*)\]` of
`parse_fork_target`: the greedy first group makes it the last index `p` with
`/` at `p`, `[` at `p+1` and some `]` beyond. -/
def forkSplitPos (s : Str) : Option Nat :=
  ((List.range s.length).filter (fun p =>
      s[p]? = some '/' ∧ s[p + 1]? = some '[' ∧ ']' ∈ s.drop (p + 2))).getLast?

/-- The last `]` of the string, matching the greedy second group. -/
def lastCloseIdx (s : Str) : Option Nat :=
  ((List.range s.length).filter (fun q => s[q]? = some ']')).getLast?

/-- Translation of `parse_fork_target` (codegen/common.py, lines 55-65) for a
string target: splits `base/[b1,b2,...]` into the base and the stripped
branch list, or returns the string with no branches. -/
def parse_fork_target (target_str : Str) : Str × Option (List Str) :=
  match forkSplitPos target_str with
  | none => (target_str, none)
  | some p =>
    let r := (lastCloseIdx target_str).getD 0
    let content := (target_str.take r).drop (p + 2)
    (target_str.take p, some ((splitOnChar ',' content).map pyStripWs))

/-- The `_fmt_func` exit-name formatter (base_lang.py lines 35-37). -/
def fmt_func (path : List Str) : Str :=
  "state_".toList ++ flatten_name path ++ "_exit".toList

/-- The `_fmt_entry` entry/start-name formatter (base_lang.py lines 39-41). -/
def fmt_entry (path : List Str) (suffix : Str) : Str :=
  "state_".toList ++ flatten_name path ++ suffix

/-- The local `_fmt_entry_forced_start` closure: the fork base itself gets
`_start`, every other path keeps the requested suffix. -/
def forcedStartFmt (target_path path : List Str) (suffix : Str) : Str :=
  if path = target_path then "state_".toList ++ flatten_name path ++ startSuffix
  else "state_".toList ++ flatten_name path ++ suffix

/-- `"    " * indent_level`. -/
def indentOf (indent_level : Nat) : Str :=
  (List.replicate indent_level ("    ".toList)).flatten

/-- A word character of the guard-rewrite regex `IN_STATE\(([\w_]+)\)`
(ASCII approximation of `\w`). -/
def isWordChar (c : Char) : Bool := c.isAlphanum || c = '_'

/-- The scanning loop of the `IN_STATE` rewrite; the first argument bounds
the number of characters still to be consumed (every step consumes at least
one), which makes the recursion structural. -/
def subInStateGo : Nat → Str → Str
  | _, [] => []
  | 0, s => s
  | fuel + 1, c :: rest =>
    if startsWithS ("IN_STATE(".toList) (c :: rest) then
      let after := (c :: rest).drop 9
      let name := after.takeWhile isWordChar
      if name ≠ [] ∧ (after.drop name.length).head? = some ')' then
        "ctx.in_state_".toList ++ name ++ "()".toList
          ++ subInStateGo fuel (after.drop (name.length + 1))
      else c :: subInStateGo fuel rest
    else c :: subInStateGo fuel rest

/-- The `re.sub(r'IN_STATE\(([\w_]+)\)', r'ctx.in_state_\1()', ...)` rewrite:
left-to-right, non-overlapping; a position where the parenthesised name does
not match is skipped one character at a time, as the regex engine does. -/
def subInState (s : Str) : Str := subInStateGo s.length s

/-- Python `splitlines()` for newline-separated hook and action text. -/
def pySplitlines (s : Str) : List Str :=
  if s = [] then []
  else if s.getLast? = some '\n' then (splitOnChar '\n' s).dropLast
  else splitOnChar '\n' s

/-- The guard condition text: `True`/`False` pass through as `true`/`false`,
anything else is the expression string; the `IN_STATE` rewrite is applied to
the result exactly as in the source. -/
def testCondOf (t : Transition) : Str :=
  subInState (match t.guard with
    | none => "true".toList
    | some (GuardVal.b true) => "true".toList
    | some (GuardVal.b false) => "false".toList
    | some (GuardVal.expr e) => e)

/-- The opening `if <cond> {` line of the guarded block. -/
def guardLine (t : Transition) (indent : Str) : Str :=
  indent ++ "if ".toList ++ testCondOf t ++ " \x7b\n".toList

/-- `src_str = "/" + "/".join(name_path[1:])`. -/
def srcStrOf (name_path : List Str) : Str :=
  "/".toList ++ List.intercalate ("/".toList) name_path.tail

/-- The interpolated transition-hook block (empty hook text emits nothing). -/
def hookBlock (env : GenEnv) (indent : Str) : Str :=
  if env.hookTransition = [] then []
  else
    List.intercalate ("\n".toList)
        ((pySplitlines env.hookTransition).map (fun line => indent ++ "    ".toList ++ line))
      ++ "\n".toList

/-- The interpolated action block (absent or empty action emits nothing). -/
def actionBlock (t : Transition) (indent : Str) : Str :=
  match t.action with
  | none => []
  | some a =>
    if a = [] then []
    else
      List.intercalate ("\n".toList)
          ((pySplitlines a).map (fun line => indent ++ "    ".toList ++ line))
        ++ "\n".toList

/-- Everything the emitter writes before the branch dispatch: the guard line,
then (unless the branch is a decision reference) the `t_src`/`t_dst` bindings
and the hook text, then the fired flag, then the action. -/
def headCode (env : GenEnv) (name_path : List Str) (t : Transition) (indent : Str)
    (is_dec : Bool) (dst : Str) : Str :=
  guardLine t indent
  ++ (if is_dec then []
      else indent ++ "    let t_src = \"".toList ++ srcStrOf name_path ++ "\";\n".toList
        ++ indent ++ "    let t_dst = \"".toList ++ dst ++ "\";\n".toList
        ++ hookBlock env indent)
  ++ indent ++ "    ctx.transition_fired = true;\n".toList
  ++ actionBlock t indent

/-- One `{indent}    {fn}(ctx);\n` line per formatted function name. -/
def joinCalls (indent : Str) (fns : List Str) : Str :=
  (fns.map (fun fn => indent ++ "    ".toList ++ fn ++ "(ctx);\n".toList)).flatten

/-- The closing `}` line of the guarded block. -/
def closeLine (indent : Str) : Str := indent ++ "\x7d\n".toList

/-- The termination tail: the exit sequence toward `['root']`, the synthetic
root exit, the terminated flag and the return. -/
def termTail (name_path : List Str) (indent : Str) : Str :=
  joinCalls indent (get_exit_sequence name_path [rootSeg] fmt_func)
  ++ indent ++ "    state_root_exit(ctx);\n".toList
  ++ indent ++ "    ctx.terminated = true;\n".toList
  ++ indent ++ "    return;\n".toList

/-- `str(forks)` on a Python list of strings, used inside `dst_str`. -/
def pyStrList (xs : List Str) : Str :=
  "[".toList
    ++ List.intercalate (", ".toList) (xs.map (fun x => [Char.ofNat 39] ++ x ++ [Char.ofNat 39]))
    ++ "]".toList

/-- `dst_str` of an ordinary branch. -/
def ordinaryDst (name_path : List Str) (raw : Str) : Str :=
  let pf := parse_fork_target raw
  let target_path := resolve_target_path name_path pf.1
  "/".toList ++ List.intercalate ("/".toList) target_path.tail
    ++ (match pf.2 with
        | some fs => pyStrList fs
        | none => [])

/-- `dst_str` of a decision branch. -/
def decisionDst (name : Str) : Str := "Decision(".toList ++ name ++ ")".toList

/-- `dst_str` of a termination branch. -/
def termDst : Str := "Termination".toList

/-- The cross-limb orthogonal check (base_lang.py lines 135-179,
rust_lang.py lines 330-379, textually identical): `some code` when the early
return fires, `none` when the emitter falls through.  The hot-swap case
(composite target limb, destination strictly deeper) exits through the limb's
`_exit` pointer and enters from the limb; the reset case exits through the
limb's `_region_exit` pointer and enters from the LCA container. -/
def crossLimbCode (env : GenEnv) (name_path target_path : List Str) (lca_index : Nat)
    (forks : Option (List Str)) (indent : Str) : Option Str :=
  let container_path := name_path.take lca_index
  match resolve_state_data env.data container_path with
  | none => none
  | some lca_data =>
    if lca_data.orthogonal then
      if lca_index < name_path.length ∧ lca_index < target_path.length then
        let source_limb := name_path.getD lca_index []
        let target_limb := target_path.getD lca_index []
        if source_limb ≠ target_limb then
          let target_limb_path := name_path.take lca_index ++ [target_limb]
          let target_limb_c_name := flatten_name target_limb_path
          let limb_data := resolve_state_data env.data target_limb_path
          let is_composite_limb := match limb_data with
            | some n => n.states.isSome
            | none => false
          let is_targeting_deeper : Bool := decide (target_limb_path.length < target_path.length)
          let exit_line :=
            if is_composite_limb && is_targeting_deeper then
              indent ++ "    if let Some(exit_fn) = ctx.ptr_".toList ++ target_limb_c_name
                ++ "_exit \x7b exit_fn(ctx); \x7d\n".toList
            else
              indent ++ "    if let Some(exit_fn) = ctx.ptr_".toList ++ target_limb_c_name
                ++ "_region_exit \x7b exit_fn(ctx); \x7d\n".toList
          let entry_source :=
            if is_composite_limb && is_targeting_deeper then target_limb_path
            else container_path
          let entry_funcs :=
            match forks with
            | none => get_entry_sequence entry_source target_path fmt_entry
            | some _ => get_entry_sequence entry_source target_path (forcedStartFmt target_path)
          some (exit_line ++ joinCalls indent entry_funcs
            ++ indent ++ "    return;\n".toList ++ closeLine indent)
        else none
      else none
    else none

/-- The implicit-fork rewrite (base_lang.py lines 182-204): when the
(fork-free) destination has an orthogonal strict ancestor and the source is
not in the matching limb, the target becomes the orthogonal ancestor and the
tail becomes a single fork branch.  The Python also reassigns `base_target`,
which is never read afterwards. -/
def implicitRewrite (env : GenEnv) (name_path target_path : List Str) :
    List Str × Option (List Str) :=
  let idxs := (List.range target_path.length).filter (fun i =>
    match resolve_state_data env.data (target_path.take (i + 1)) with
    | some n => n.orthogonal
    | none => false)
  match idxs.head? with
  | none => (target_path, none)
  | some parallel_ancestor_idx =>
    if parallel_ancestor_idx < target_path.length - 1 then
      let limb_idx := parallel_ancestor_idx + 1
      let is_same_limb := limb_idx < name_path.length ∧
        name_path.getD limb_idx [] = target_path.getD limb_idx []
      if is_same_limb then (target_path, none)
      else (target_path.take (parallel_ancestor_idx + 1),
        some [List.intercalate ("/".toList) (target_path.drop (parallel_ancestor_idx + 1))])
    else (target_path, none)

/-- The dynamic child-exit fix (base_lang.py lines 207-211): when the LCA is
at or past the source and the source is a non-orthogonal composite, exit the
active descendant through the source's stored exit pointer. -/
def dynExitCode (env : GenEnv) (name_path : List Str) (lca_index : Nat) (indent : Str) : Str :=
  if name_path.length ≤ lca_index then
    match resolve_state_data env.data name_path with
    | some my_data =>
      if my_data.states.isSome ∧ ¬my_data.orthogonal then
        indent ++ "    if let Some(exit_fn) = ctx.ptr_".toList ++ flatten_name name_path
          ++ "_exit \x7b exit_fn(ctx); \x7d\n".toList
      else []
    | none => []
  else []

/-- The fork-children section (base_lang.py lines 229-248): for each child of
the fork base in declaration order, deep-enter down the first branch whose
head names the child, or enter the child's `_entry` when no branch does. -/
def forkSection (env : GenEnv) (target_path : List Str) (forks : List Str) (indent : Str) :
    Str :=
  match resolve_state_data env.data target_path with
  | none => []
  | some parallel_data =>
    match parallel_data.states with
    | none => []
    | some children =>
      (children.map (fun child =>
        match forks.find? (fun fork => (splitOnChar '/' fork).headD [] = child.1) with
        | some matching_fork =>
          joinCalls indent (get_entry_sequence target_path
            (target_path ++ splitOnChar '/' matching_fork) fmt_entry)
        | none =>
          indent ++ "    ".toList ++ fmt_entry (target_path ++ [child.1]) entrySuffix
            ++ "(ctx);\n".toList)).flatten

/-- The ordinary branch of `emit_transition_logic` after the head code:
cross-limb early return or (implicit rewrite, dynamic child exit, standard
exit sequence, entry sequence with or without forks, return, close).  This
text is identical in `BaseGenerator` and `RustGenerator`. -/
def ordinaryBody (env : GenEnv) (name_path : List Str) (raw : Str) (indent : Str) : Str :=
  let pf := parse_fork_target raw
  let target_path0 := resolve_target_path name_path pf.1
  let lca_index := get_lca_index name_path target_path0
  match crossLimbCode env name_path target_path0 lca_index pf.2 indent with
  | some code => code
  | none =>
    let rewritten :=
      match pf.2 with
      | none => implicitRewrite env name_path target_path0
      | some fs => (target_path0, some fs)
    let target_path := rewritten.1
    let forks := rewritten.2
    dynExitCode env name_path lca_index indent
      ++ joinCalls indent (get_exit_sequence name_path target_path fmt_func)
      ++ (match forks with
          | none => joinCalls indent (get_entry_sequence name_path target_path fmt_entry)
          | some fs =>
            joinCalls indent
                (get_entry_sequence name_path target_path (forcedStartFmt target_path))
              ++ forkSection env target_path fs indent)
      ++ indent ++ "    return;\n".toList
      ++ closeLine indent

/-- `is_decision` of `BaseGenerator`: the raw target is a string starting
with `@`. -/
def baseIsDecision (to_ : Option Str) : Bool :=
  match to_ with
  | some s => startsWithS ("@".toList) s
  | none => false

/-- The decision test of `RustGenerator`: membership of the raw target string
itself in the decisions dict (`raw_target in self.decisions`). -/
def rustIsDecision (env : GenEnv) (to_ : Option Str) : Bool :=
  match to_ with
  | some s => (lookupAssoc env.decisions s).isSome
  | none => false

/-- Sequences a list of optional strings into their concatenation, failing if
any element fails (a failing nested decision emission propagates). -/
def optListJoin : List (Option Str) → Option Str
  | [] => some []
  | none :: _ => none
  | some s :: rest =>
    match optListJoin rest with
    | none => none
    | some r => some (s ++ r)

/-- One step of `BaseGenerator.emit_transition_logic` given a callback for
the nested decision recursion.  `none` models a `KeyError` on a missing
decision name; the dispatch order (termination, decision by `@` prefix,
ordinary) follows the source. -/
def baseEmitBody (env : GenEnv) (recurse : List Str → Transition → Nat → Option Str)
    (name_path : List Str) (t : Transition) (indent_level : Nat) : Option Str :=
  let indent := indentOf indent_level
  match t.to_ with
  | none =>
    some (headCode env name_path t indent (baseIsDecision t.to_) termDst
      ++ termTail name_path indent ++ closeLine indent)
  | some s =>
    if s = "null".toList ∨ s = [] then
      some (headCode env name_path t indent (baseIsDecision t.to_) termDst
        ++ termTail name_path indent ++ closeLine indent)
    else if startsWithS ("@".toList) s then
      match lookupAssoc env.decisions s.tail with
      | none => none
      | some rules =>
        match optListJoin (rules.map (fun r => recurse name_path r (indent_level + 1))) with
        | none => none
        | some inner =>
          some (headCode env name_path t indent true (decisionDst s.tail)
            ++ inner ++ closeLine indent)
    else
      some (headCode env name_path t indent false (ordinaryDst name_path s)
        ++ ordinaryBody env name_path s indent)

/-- One step of `RustGenerator.emit_transition_logic`: identical to the base
step except that the decision branch requires the raw target string to be a
key of the decisions dict (no `@` stripping anywhere). -/
def rustEmitBody (env : GenEnv) (recurse : List Str → Transition → Nat → Option Str)
    (name_path : List Str) (t : Transition) (indent_level : Nat) : Option Str :=
  let indent := indentOf indent_level
  match t.to_ with
  | none =>
    some (headCode env name_path t indent (rustIsDecision env t.to_) termDst
      ++ termTail name_path indent ++ closeLine indent)
  | some s =>
    if s = "null".toList ∨ s = [] then
      some (headCode env name_path t indent (rustIsDecision env t.to_) termDst
        ++ termTail name_path indent ++ closeLine indent)
    else
      match lookupAssoc env.decisions s with
      | some rules =>
        match optListJoin (rules.map (fun r => recurse name_path r (indent_level + 1))) with
        | none => none
        | some inner =>
          some (headCode env name_path t indent true (decisionDst s)
            ++ inner ++ closeLine indent)
      | none =>
        some (headCode env name_path t indent false (ordinaryDst name_path s)
          ++ ordinaryBody env name_path s indent)

/-- `BaseGenerator.emit_transition_logic` with fuel bounding the decision
recursion depth (the Python recursion is unbounded; a decision cycle would
not terminate, as the spec notes). -/
def baseEmit (env : GenEnv) : Nat → List Str → Transition → Nat → Option Str
  | 0, _, _, _ => none
  | fuel + 1, name_path, t, indent_level =>
    baseEmitBody env (baseEmit env fuel) name_path t indent_level

/-- `RustGenerator.emit_transition_logic` with fuel, see `baseEmit`. -/
def rustEmit (env : GenEnv) : Nat → List Str → Transition → Nat → Option Str
  | 0, _, _, _ => none
  | fuel + 1, name_path, t, indent_level =>
    rustEmitBody env (rustEmit env fuel) name_path t indent_level

/-! Dispatch lemmas for the two emitters. -/

lemma baseEmit_ordinary (env : GenEnv) (fuel : Nat) (name_path : List Str) (t : Transition)
    (lvl : Nat) (raw : Str) (hto : t.to_ = some raw) (hnull : raw ≠ "null".toList)
    (hempty : raw ≠ []) (hdec : startsWithS ("@".toList) raw = false) :
    baseEmit env (fuel + 1) name_path t lvl
      = some (headCode env name_path t (indentOf lvl) false (ordinaryDst name_path raw)
          ++ ordinaryBody env name_path raw (indentOf lvl)) := by
  show baseEmitBody env (baseEmit env fuel) name_path t lvl = _
  simp only [baseEmitBody, hto]
  rw [if_neg (fun h => h.elim hnull hempty),
    if_neg (fun h => Bool.false_ne_true (hdec.symm.trans h))]

lemma rustEmit_ordinary (env : GenEnv) (fuel : Nat) (name_path : List Str) (t : Transition)
    (lvl : Nat) (raw : Str) (hto : t.to_ = some raw) (hnull : raw ≠ "null".toList)
    (hempty : raw ≠ []) (hdec : lookupAssoc env.decisions raw = none) :
    rustEmit env (fuel + 1) name_path t lvl
      = some (headCode env name_path t (indentOf lvl) false (ordinaryDst name_path raw)
          ++ ordinaryBody env name_path raw (indentOf lvl)) := by
  show rustEmitBody env (rustEmit env fuel) name_path t lvl = _
  simp only [rustEmitBody, hto]
  rw [if_neg (fun h => h.elim hnull hempty), hdec]

lemma ordinaryBody_of_crossLimb (env : GenEnv) (name_path : List Str) (raw : Str)
    (indent : Str) (code : Str)
    (h : crossLimbCode env name_path
          (resolve_target_path name_path (parse_fork_target raw).1)
          (get_lca_index name_path
            (resolve_target_path name_path (parse_fork_target raw).1))
          (parse_fork_target raw).2 indent = some code) :
    ordinaryBody env name_path raw indent = code := by
  simp only [ordinaryBody]
  rw [h]

lemma crossLimbCode_spec (env : GenEnv) (name_path target : List Str) (k : Nat)
    (lcaNode : StateNode) (forks : Option (List Str)) (indent : Str)
    (hnode : resolve_state_data env.data (name_path.take k) = some lcaNode)
    (horth : lcaNode.orthogonal = true)
    (hsl : k < name_path.length) (htl : k < target.length)
    (hdiff : name_path.getD k [] ≠ target.getD k []) :
    crossLimbCode env name_path target k forks indent
      = some
          ((if (match resolve_state_data env.data (name_path.take k ++ [target.getD k []]) with
                | some n => n.states.isSome
                | none => false)
               && decide ((name_path.take k ++ [target.getD k []]).length < target.length) then
              indent ++ "    if let Some(exit_fn) = ctx.ptr_".toList
                ++ flatten_name (name_path.take k ++ [target.getD k []])
                ++ "_exit \x7b exit_fn(ctx); \x7d\n".toList
                ++ joinCalls indent
                    (match forks with
                     | none => get_entry_sequence (name_path.take k ++ [target.getD k []])
                         target fmt_entry
                     | some _ => get_entry_sequence (name_path.take k ++ [target.getD k []])
                         target (forcedStartFmt target))
            else
              indent ++ "    if let Some(exit_fn) = ctx.ptr_".toList
                ++ flatten_name (name_path.take k ++ [target.getD k []])
                ++ "_region_exit \x7b exit_fn(ctx); \x7d\n".toList
                ++ joinCalls indent
                    (match forks with
                     | none => get_entry_sequence (name_path.take k) target fmt_entry
                     | some _ => get_entry_sequence (name_path.take k) target
                         (forcedStartFmt target)))
            ++ indent ++ "    return;\n".toList ++ closeLine indent) := by
  simp only [crossLimbCode, hnode, horth]
  rw [if_pos trivial, if_pos ⟨hsl, htl⟩, if_pos hdiff]
  by_cases hc : ((match resolve_state_data env.data (name_path.take k ++ [target.getD k []]) with
      | some n => n.states.isSome
      | none => false)
      && decide ((name_path.take k ++ [target.getD k []]).length < target.length)) = true
  · rw [if_pos hc, if_pos hc, if_pos hc]
  · rw [if_neg hc, if_neg hc, if_neg hc]

/-- C2: for an ordinary fork-free target whose LCA node is orthogonal with
source and target in different limbs, both emitters produce the hot-swap
block: when the target limb has children and the resolved target is strictly
longer than the limb path, a conditional call through `ptr_<limb>_exit`
followed by the entry sequence from the limb down to the destination;
otherwise a conditional call through `ptr_<limb>_region_exit` followed by the
entry sequence from the LCA container down; in both cases an immediate
return closes the block and the standard exit sequence for the source is
never emitted. -/
theorem cross_limb_hot_swap (env : GenEnv) (fuel : Nat) (name_path : List Str)
    (t : Transition) (lvl : Nat) (raw base : Str) (target : List Str) (k : Nat)
    (lcaNode : StateNode)
    (hto : t.to_ = some raw)
    (hnull : raw ≠ "null".toList) (hempty : raw ≠ [])
    (hbase_dec : startsWithS ("@".toList) raw = false)
    (hrust_dec : lookupAssoc env.decisions raw = none)
    (hpf : parse_fork_target raw = (base, none))
    (htarget : resolve_target_path name_path base = target)
    (hk : get_lca_index name_path target = k)
    (hnode : resolve_state_data env.data (name_path.take k) = some lcaNode)
    (horth : lcaNode.orthogonal = true)
    (hsl : k < name_path.length) (htl : k < target.length)
    (hdiff : name_path.getD k [] ≠ target.getD k []) :
    baseEmit env (fuel + 1) name_path t lvl
        = some (headCode env name_path t (indentOf lvl) false (ordinaryDst name_path raw)
            ++ ((if (match resolve_state_data env.data
                      (name_path.take k ++ [target.getD k []]) with
                    | some n => n.states.isSome
                    | none => false)
                   && decide ((name_path.take k ++ [target.getD k []]).length < target.length)
                 then
                   indentOf lvl ++ "    if let Some(exit_fn) = ctx.ptr_".toList
                     ++ flatten_name (name_path.take k ++ [target.getD k []])
                     ++ "_exit \x7b exit_fn(ctx); \x7d\n".toList
                     ++ joinCalls (indentOf lvl)
                         (get_entry_sequence (name_path.take k ++ [target.getD k []])
                           target fmt_entry)
                 else
                   indentOf lvl ++ "    if let Some(exit_fn) = ctx.ptr_".toList
                     ++ flatten_name (name_path.take k ++ [target.getD k []])
                     ++ "_region_exit \x7b exit_fn(ctx); \x7d\n".toList
                     ++ joinCalls (indentOf lvl)
                         (get_entry_sequence (name_path.take k) target fmt_entry))
                ++ indentOf lvl ++ "    return;\n".toList ++ closeLine (indentOf lvl)))
      ∧ rustEmit env (fuel + 1) name_path t lvl
        = some (headCode env name_path t (indentOf lvl) false (ordinaryDst name_path raw)
            ++ ((if (match resolve_state_data env.data
                      (name_path.take k ++ [target.getD k []]) with
                    | some n => n.states.isSome
                    | none => false)
                   && decide ((name_path.take k ++ [target.getD k []]).length < target.length)
                 then
                   indentOf lvl ++ "    if let Some(exit_fn) = ctx.ptr_".toList
                     ++ flatten_name (name_path.take k ++ [target.getD k []])
                     ++ "_exit \x7b exit_fn(ctx); \x7d\n".toList
                     ++ joinCalls (indentOf lvl)
                         (get_entry_sequence (name_path.take k ++ [target.getD k []])
                           target fmt_entry)
                 else
                   indentOf lvl ++ "    if let Some(exit_fn) = ctx.ptr_".toList
                     ++ flatten_name (name_path.take k ++ [target.getD k []])
                     ++ "_region_exit \x7b exit_fn(ctx); \x7d\n".toList
                     ++ joinCalls (indentOf lvl)
                         (get_entry_sequence (name_path.take k) target fmt_entry))
                ++ indentOf lvl ++ "    return;\n".toList ++ closeLine (indentOf lvl))) := by
  have hcross := crossLimbCode_spec env name_path target k lcaNode none (indentOf lvl)
    hnode horth hsl htl hdiff
  have h1 : crossLimbCode env name_path
      (resolve_target_path name_path (parse_fork_target raw).1)
      (get_lca_index name_path (resolve_target_path name_path (parse_fork_target raw).1))
      (parse_fork_target raw).2 (indentOf lvl)
      = some ((if (match resolve_state_data env.data
                  (name_path.take k ++ [target.getD k []]) with
                | some n => n.states.isSome
                | none => false)
               && decide ((name_path.take k ++ [target.getD k []]).length < target.length)
             then
               indentOf lvl ++ "    if let Some(exit_fn) = ctx.ptr_".toList
                 ++ flatten_name (name_path.take k ++ [target.getD k []])
                 ++ "_exit \x7b exit_fn(ctx); \x7d\n".toList
                 ++ joinCalls (indentOf lvl)
                     (get_entry_sequence (name_path.take k ++ [target.getD k []])
                       target fmt_entry)
             else
               indentOf lvl ++ "    if let Some(exit_fn) = ctx.ptr_".toList
                 ++ flatten_name (name_path.take k ++ [target.getD k []])
                 ++ "_region_exit \x7b exit_fn(ctx); \x7d\n".toList
                 ++ joinCalls (indentOf lvl)
                     (get_entry_sequence (name_path.take k) target fmt_entry))
            ++ indentOf lvl ++ "    return;\n".toList ++ closeLine (indentOf lvl)) := by
    simp only [hpf]
    rw [htarget, hk]
    exact hcross
  have hob := ordinaryBody_of_crossLimb env name_path raw (indentOf lvl) _ h1
  constructor
  · rw [baseEmit_ordinary env fuel name_path t lvl raw hto hnull hempty hbase_dec, hob]
  · rw [rustEmit_ordinary env fuel name_path t lvl raw hto hnull hempty hrust_dec, hob]

lemma lca_to_root (rest : List Str) (hr : rest ≠ []) :
    get_lca_index (rootSeg :: rest) [rootSeg] = 1 := by
  have h1 : commonPrefixLen (rootSeg :: rest) [rootSeg] = 1 := by
    show (if rootSeg = rootSeg then commonPrefixLen rest [] + 1 else 0) = 1
    rw [if_pos rfl]
    cases rest <;> rfl
  show (if commonPrefixLen (rootSeg :: rest) [rootSeg] = (rootSeg :: rest).length ∧
        commonPrefixLen (rootSeg :: rest) [rootSeg] = ([rootSeg] : List Str).length
        then commonPrefixLen (rootSeg :: rest) [rootSeg] - 1
        else commonPrefixLen (rootSeg :: rest) [rootSeg]) = 1
  rw [h1]
  rw [if_neg]
  · rintro ⟨hc1, -⟩
    rw [List.length_cons] at hc1
    exact hr (List.length_eq_zero.mp (by omega))

/-- C5: a transition whose target is `None`, `'null'` or the empty string
makes both emitters produce, inside the guard block, the exit calls for the
source and each proper ancestor from deepest upward, an explicit
`state_root_exit(ctx)` call for the synthetic root, the
`ctx.terminated = true` assignment and a return; the exit-call sequence runs
over the source prefixes of lengths `len(name_path)` down to 2. -/
theorem termination_branch_exits_through_root (env : GenEnv) (fuel : Nat)
    (name_path rest : List Str) (t : Transition) (lvl : Nat)
    (hp : name_path = rootSeg :: rest) (hr : rest ≠ [])
    (ht : t.to_ = none ∨ t.to_ = some ("null".toList) ∨ t.to_ = some []) :
    baseEmit env (fuel + 1) name_path t lvl
        = some (headCode env name_path t (indentOf lvl) false termDst
            ++ joinCalls (indentOf lvl) (get_exit_sequence name_path [rootSeg] fmt_func)
            ++ indentOf lvl ++ "    state_root_exit(ctx);\n".toList
            ++ indentOf lvl ++ "    ctx.terminated = true;\n".toList
            ++ indentOf lvl ++ "    return;\n".toList
            ++ closeLine (indentOf lvl))
      ∧ rustEmit env (fuel + 1) name_path t lvl
        = some (headCode env name_path t (indentOf lvl) (rustIsDecision env t.to_) termDst
            ++ joinCalls (indentOf lvl) (get_exit_sequence name_path [rootSeg] fmt_func)
            ++ indentOf lvl ++ "    state_root_exit(ctx);\n".toList
            ++ indentOf lvl ++ "    ctx.terminated = true;\n".toList
            ++ indentOf lvl ++ "    return;\n".toList
            ++ closeLine (indentOf lvl))
      ∧ get_exit_sequence name_path [rootSeg] fmt_func
        = ((List.range' 1 (name_path.length - 1)).reverse).map
            (fun i => fmt_func (name_path.take (i + 1))) := by
  refine ⟨?_, ?_, ?_⟩
  · show baseEmitBody env (baseEmit env fuel) name_path t lvl = _
    rcases ht with h | h | h
    · simp only [baseEmitBody, h, baseIsDecision, termTail, List.append_assoc]
    · simp only [baseEmitBody, h, baseIsDecision, termTail, List.append_assoc]
      rw [if_pos (Or.inl trivial)]
      simp [startsWithS]
    · simp only [baseEmitBody, h, baseIsDecision, termTail, List.append_assoc]
      rw [if_pos (Or.inr trivial)]
      simp [startsWithS]
  · show rustEmitBody env (rustEmit env fuel) name_path t lvl = _
    rcases ht with h | h | h
    · simp only [rustEmitBody, h, rustIsDecision, termTail, List.append_assoc]
    · simp only [rustEmitBody, h, termTail, List.append_assoc]
      rw [if_pos (Or.inl trivial)]
    · simp only [rustEmitBody, h, termTail, List.append_assoc]
      rw [if_pos (Or.inr trivial)]
  · subst hp
    show ((List.range' (get_lca_index (rootSeg :: rest) [rootSeg])
          ((rootSeg :: rest).length - get_lca_index (rootSeg :: rest) [rootSeg])).reverse).map
          (fun i => fmt_func ((rootSeg :: rest).take (i + 1)))
        = ((List.range' 1 ((rootSeg :: rest).length - 1)).reverse).map
            (fun i => fmt_func ((rootSeg :: rest).take (i + 1)))
    rw [lca_to_root rest hr]

lemma forced_entry_all_start (src dst : List Str) :
    get_entry_sequence src dst (forcedStartFmt dst)
      = get_entry_sequence src dst (fun p _ => fmt_entry p startSuffix) := by
  simp only [get_entry_sequence]
  refine List.map_congr_left (fun i hi => ?_)
  have hk' : (if get_lca_index src dst = dst.length then get_lca_index src dst - 1
      else get_lca_index src dst) ≤ dst.length := by
    have := Nat.le_trans (get_lca_index_le src dst) (commonPrefixLen_le_right src dst)
    split <;> omega
  have hik : i < dst.length := by
    have h1 := (List.mem_range'_1.mp hi).2
    omega
  by_cases hlast : i = dst.length - 1
  · have htake : dst.take (i + 1) = dst := List.take_of_length_le (by omega)
    rw [if_pos hlast]
    simp [forcedStartFmt, htake, fmt_entry]
  · have htake : dst.take (i + 1) ≠ dst := by
      intro he
      have hlen := congrArg List.length he
      rw [List.length_take] at hlen
      omega
    rw [if_neg hlast]
    simp [forcedStartFmt, htake, fmt_entry]

/-- C6: an ordinary fork transition whose base resolves to a composite state
emits the entry sequence down to the fork base entirely with `_start` calls
(the fork base itself is forced from `_entry` to `_start`), and then, for
each child of the fork base in declaration order, the deep entry sequence
down the first branch whose head names the child, or a single `_entry` call
for the child when no branch names it. -/
theorem fork_entry_shallow_start (env : GenEnv) (fuel : Nat) (name_path : List Str)
    (t : Transition) (lvl : Nat) (raw base : Str) (fs : List Str) (target : List Str)
    (baseNode : StateNode) (children : List (Str × StateNode))
    (hto : t.to_ = some raw) (hnull : raw ≠ "null".toList) (hempty : raw ≠ [])
    (hdec : startsWithS ("@".toList) raw = false)
    (hpf : parse_fork_target raw = (base, some fs))
    (htarget : resolve_target_path name_path base = target)
    (hcross : crossLimbCode env name_path target (get_lca_index name_path target) (some fs)
        (indentOf lvl) = none)
    (hnode : resolve_state_data env.data target = some baseNode)
    (hchildren : baseNode.states = some children) :
    baseEmit env (fuel + 1) name_path t lvl
      = some (headCode env name_path t (indentOf lvl) false (ordinaryDst name_path raw)
          ++ dynExitCode env name_path (get_lca_index name_path target) (indentOf lvl)
          ++ joinCalls (indentOf lvl) (get_exit_sequence name_path target fmt_func)
          ++ joinCalls (indentOf lvl)
              (get_entry_sequence name_path target (fun p _ => fmt_entry p startSuffix))
          ++ (children.map (fun child =>
                match fs.find? (fun fork => (splitOnChar '/' fork).headD [] = child.1) with
                | some matching_fork =>
                  joinCalls (indentOf lvl) (get_entry_sequence target
                    (target ++ splitOnChar '/' matching_fork) fmt_entry)
                | none =>
                  indentOf lvl ++ "    ".toList ++ fmt_entry (target ++ [child.1]) entrySuffix
                    ++ "(ctx);\n".toList)).flatten
          ++ indentOf lvl ++ "    return;\n".toList
          ++ closeLine (indentOf lvl)) := by
  rw [baseEmit_ordinary env fuel name_path t lvl raw hto hnull hempty hdec]
  have hOB : ordinaryBody env name_path raw (indentOf lvl)
      = dynExitCode env name_path (get_lca_index name_path target) (indentOf lvl)
        ++ joinCalls (indentOf lvl) (get_exit_sequence name_path target fmt_func)
        ++ (joinCalls (indentOf lvl)
              (get_entry_sequence name_path target (fun p _ => fmt_entry p startSuffix))
            ++ (children.map (fun child =>
                match fs.find? (fun fork => (splitOnChar '/' fork).headD [] = child.1) with
                | some matching_fork =>
                  joinCalls (indentOf lvl) (get_entry_sequence target
                    (target ++ splitOnChar '/' matching_fork) fmt_entry)
                | none =>
                  indentOf lvl ++ "    ".toList ++ fmt_entry (target ++ [child.1]) entrySuffix
                    ++ "(ctx);\n".toList)).flatten)
        ++ indentOf lvl ++ "    return;\n".toList
        ++ closeLine (indentOf lvl) := by
    simp only [ordinaryBody, hpf]
    rw [htarget, hcross]
    simp only [forkSection, hnode, hchildren]
    rw [forced_entry_all_start name_path target]
  rw [hOB]
  simp [List.append_assoc]

/-! A concrete model for evaluations and witnesses: an orthogonal state `O`
with a composite limb `L` (children `l1`, `l2`) and a leaf limb `R`, a leaf
sibling `s`, and one global decision `X` with a single self-targeting rule. -/

/-- A childless leaf node. -/
def leafNode : StateNode := StateNode.mk none false none

/-- The composite-OR limb `L` with children `l1` and `l2`. -/
def limbL : StateNode :=
  StateNode.mk (some ("l1".toList)) false
    (some [("l1".toList, leafNode), ("l2".toList, leafNode)])

/-- The orthogonal container `O` with limbs `L` and `R`. -/
def orthO : StateNode :=
  StateNode.mk none true (some [("L".toList, limbL), ("R".toList, leafNode)])

/-- The root of the test model. -/
def testRoot : StateNode :=
  StateNode.mk (some ("O".toList)) false
    (some [("O".toList, orthO), ("s".toList, leafNode)])

/-- The generator environment for the test model, with one decision `X`. -/
def testEnv : GenEnv :=
  { data := testRoot
    decisions := [("X".toList, [{ to_ := some ("./".toList) }])]
    hookTransition := [] }

set_option maxRecDepth 8000 in
/-- C1: on the target string `@X`, with `X` a name of the flattened decision
namespace, `BaseGenerator` emits a decision branch (no `t_src`/`t_dst`
bindings, one nested guarded block per rule at one extra indent level), but
`RustGenerator` does not: its membership test `raw_target in self.decisions`
checks the raw string `@X` against the bare decision names, misses, and
emits an ordinary transition toward a state literally named `@X`. -/
theorem decision_prefix_divergence_base_rust :
    baseEmit testEnv 2 [rootSeg, "s".toList] { to_ := some ("@X".toList) } 1
        = some (headCode testEnv [rootSeg, "s".toList] { to_ := some ("@X".toList) }
              (indentOf 1) true (decisionDst ("X".toList))
            ++ ((baseEmit testEnv 1 [rootSeg, "s".toList] { to_ := some ("./".toList) } 2).getD []
              ++ closeLine (indentOf 1)))
      ∧ rustEmit testEnv 2 [rootSeg, "s".toList] { to_ := some ("@X".toList) } 1
        = some (headCode testEnv [rootSeg, "s".toList] { to_ := some ("@X".toList) }
              (indentOf 1) false (ordinaryDst [rootSeg, "s".toList] ("@X".toList))
            ++ ordinaryBody testEnv [rootSeg, "s".toList] ("@X".toList) (indentOf 1)) :=
  ⟨by decide, by decide⟩

set_option maxRecDepth 8000 in
/-- Witness for `cross_limb_hot_swap`: from limb `R` of the orthogonal `O`
into `l2` inside the composite limb `L`. -/
theorem cross_limb_hot_swap_inst :
    baseEmit testEnv 1 [rootSeg, "O".toList, "R".toList]
        { to_ := some ("/O/L/l2".toList) } 1
        = some (headCode testEnv [rootSeg, "O".toList, "R".toList]
              { to_ := some ("/O/L/l2".toList) } (indentOf 1) false
              (ordinaryDst [rootSeg, "O".toList, "R".toList] ("/O/L/l2".toList))
            ++ (indentOf 1 ++ "    if let Some(exit_fn) = ctx.ptr_".toList
              ++ flatten_name [rootSeg, "O".toList, "L".toList]
              ++ "_exit \x7b exit_fn(ctx); \x7d\n".toList
              ++ joinCalls (indentOf 1)
                  (get_entry_sequence [rootSeg, "O".toList, "L".toList]
                    [rootSeg, "O".toList, "L".toList, "l2".toList] fmt_entry)
              ++ indentOf 1 ++ "    return;\n".toList ++ closeLine (indentOf 1)))
      ∧ rustEmit testEnv 1 [rootSeg, "O".toList, "R".toList]
          { to_ := some ("/O/L/l2".toList) } 1
        = some (headCode testEnv [rootSeg, "O".toList, "R".toList]
              { to_ := some ("/O/L/l2".toList) } (indentOf 1) false
              (ordinaryDst [rootSeg, "O".toList, "R".toList] ("/O/L/l2".toList))
            ++ (indentOf 1 ++ "    if let Some(exit_fn) = ctx.ptr_".toList
              ++ flatten_name [rootSeg, "O".toList, "L".toList]
              ++ "_exit \x7b exit_fn(ctx); \x7d\n".toList
              ++ joinCalls (indentOf 1)
                  (get_entry_sequence [rootSeg, "O".toList, "L".toList]
                    [rootSeg, "O".toList, "L".toList, "l2".toList] fmt_entry)
              ++ indentOf 1 ++ "    return;\n".toList ++ closeLine (indentOf 1))) := by
  have h := cross_limb_hot_swap testEnv 0 [rootSeg, "O".toList, "R".toList]
    { to_ := some ("/O/L/l2".toList) } 1 ("/O/L/l2".toList) ("/O/L/l2".toList)
    [rootSeg, "O".toList, "L".toList, "l2".toList] 2 orthO
    rfl (by decide) (by decide) (by decide) (by decide) (by decide) (by decide) (by decide)
    rfl rfl (by decide) (by decide) (by decide)
  exact ⟨h.1.trans (by decide), h.2.trans (by decide)⟩

set_option maxRecDepth 8000 in
/-- Witness for `termination_branch_exits_through_root` at the leaf `s`. -/
theorem termination_branch_exits_through_root_inst :
    baseEmit testEnv 1 [rootSeg, "s".toList] { to_ := none } 1
        = some (headCode testEnv [rootSeg, "s".toList] { to_ := none } (indentOf 1)
              false termDst
            ++ joinCalls (indentOf 1)
                (get_exit_sequence [rootSeg, "s".toList] [rootSeg] fmt_func)
            ++ indentOf 1 ++ "    state_root_exit(ctx);\n".toList
            ++ indentOf 1 ++ "    ctx.terminated = true;\n".toList
            ++ indentOf 1 ++ "    return;\n".toList
            ++ closeLine (indentOf 1))
      ∧ rustEmit testEnv 1 [rootSeg, "s".toList] { to_ := none } 1
        = some (headCode testEnv [rootSeg, "s".toList] { to_ := none } (indentOf 1)
              (rustIsDecision testEnv none) termDst
            ++ joinCalls (indentOf 1)
                (get_exit_sequence [rootSeg, "s".toList] [rootSeg] fmt_func)
            ++ indentOf 1 ++ "    state_root_exit(ctx);\n".toList
            ++ indentOf 1 ++ "    ctx.terminated = true;\n".toList
            ++ indentOf 1 ++ "    return;\n".toList
            ++ closeLine (indentOf 1))
      ∧ get_exit_sequence [rootSeg, "s".toList] [rootSeg] fmt_func
        = ((List.range' 1 ([rootSeg, "s".toList].length - 1)).reverse).map
            (fun i => fmt_func ([rootSeg, "s".toList].take (i + 1))) :=
  termination_branch_exits_through_root testEnv 0 [rootSeg, "s".toList] ["s".toList]
    { to_ := none } 1 rfl (by decide) (Or.inl rfl)

set_option maxRecDepth 8000 in
/-- Witness for `fork_entry_shallow_start`: the fork `/O/[L/l2]` from the
leaf `s`. -/
theorem fork_entry_shallow_start_inst :
    baseEmit testEnv 1 [rootSeg, "s".toList] { to_ := some ("/O/[L/l2]".toList) } 1
      = some (headCode testEnv [rootSeg, "s".toList]
            { to_ := some ("/O/[L/l2]".toList) } (indentOf 1) false
            (ordinaryDst [rootSeg, "s".toList] ("/O/[L/l2]".toList))
          ++ dynExitCode testEnv [rootSeg, "s".toList]
              (get_lca_index [rootSeg, "s".toList] [rootSeg, "O".toList]) (indentOf 1)
          ++ joinCalls (indentOf 1)
              (get_exit_sequence [rootSeg, "s".toList] [rootSeg, "O".toList] fmt_func)
          ++ joinCalls (indentOf 1)
              (get_entry_sequence [rootSeg, "s".toList] [rootSeg, "O".toList]
                (fun p _ => fmt_entry p startSuffix))
          ++ (([("L".toList, limbL), ("R".toList, leafNode)].map
                (fun child =>
                  match ["L/l2".toList].find?
                      (fun fork => (splitOnChar '/' fork).headD [] = child.1) with
                  | some matching_fork =>
                    joinCalls (indentOf 1) (get_entry_sequence [rootSeg, "O".toList]
                      ([rootSeg, "O".toList] ++ splitOnChar '/' matching_fork) fmt_entry)
                  | none =>
                    indentOf 1 ++ "    ".toList
                      ++ fmt_entry ([rootSeg, "O".toList] ++ [child.1]) entrySuffix
                      ++ "(ctx);\n".toList)).flatten)
          ++ indentOf 1 ++ "    return;\n".toList
          ++ closeLine (indentOf 1)) :=
  fork_entry_shallow_start testEnv 0 [rootSeg, "s".toList]
    { to_ := some ("/O/[L/l2]".toList) } 1 ("/O/[L/l2]".toList) ("/O".toList)
    ["L/l2".toList] [rootSeg, "O".toList] orthO
    [("L".toList, limbL), ("R".toList, leafNode)]
    rfl (by decide) (by decide) (by decide) (by decide) (by decide) (by decide) rfl rfl

/-! Embedding of `collect_decisions` (sm-compiler.py, lines 16-38).  The
fatal duplicate error (`print` + `sys.exit(1)`) is modelled as an `Except`
error carrying the duplicate decision name and the offending state name;
`main()` calls `collect_decisions` before `validate_model` and before any
generator runs.  An absent `decisions`/`states` key behaves exactly like an
empty map, so both are modelled as plain lists. -/

/-- The payload of the fatal duplicate-decision report: the decision name
and the state in which the duplicate was found. -/
structure DupErr where
  dname : Str
  state : Str

/-- A raw (pre-normalization) state node: its local decisions map and its
child states, both in insertion order; `α` is the opaque decision payload. -/
inductive RawState (α : Type) where
  | mk : List (Str × α) → List (Str × RawState α) → RawState α

/-- The keys of an ordered map. -/
def keysOf (m : List (Str × α)) : List Str := m.map Prod.fst

/-- The inner loop of `walk`: fold one state's local decisions into the
global map, failing on a name already present. -/
def insertLocals (stateName : Str) :
    List (Str × α) → List (Str × α) → Except DupErr (List (Str × α))
  | merged, [] => Except.ok merged
  | merged, (dname, dval) :: rest =>
    if (lookupAssoc merged dname).isSome then Except.error ⟨dname, stateName⟩
    else insertLocals stateName (merged ++ [(dname, dval)]) rest

/-- The recursive `walk`: for each state in order, fold its local decisions,
then walk its children, then continue with its siblings. -/
def walkD (merged : List (Str × α)) :
    List (Str × RawState α) → Except DupErr (List (Str × α))
  | [] => Except.ok merged
  | (name, RawState.mk decs childs) :: rest =>
    match insertLocals name merged decs with
    | Except.error e => Except.error e
    | Except.ok m1 =>
      match walkD m1 childs with
      | Except.error e => Except.error e
      | Except.ok m2 => walkD m2 rest
termination_by l => sizeOf l
decreasing_by
  all_goals simp_wf
  all_goals omega

/-- `collect_decisions`: start from the root-level decisions map and walk
the state tree. -/
def collect_decisions (rootDecisions : List (Str × α))
    (states : List (Str × RawState α)) : Except DupErr (List (Str × α)) :=
  walkD rootDecisions states

/-- All node-local decision names in walk order. -/
def localNames : List (Str × RawState α) → List Str
  | [] => []
  | (_, RawState.mk decs childs) :: rest =>
    keysOf decs ++ localNames childs ++ localNames rest

/-- All node-local decision entries in walk order. -/
def localDecs : List (Str × RawState α) → List (Str × α)
  | [] => []
  | (_, RawState.mk decs childs) :: rest =>
    decs ++ localDecs childs ++ localDecs rest

/-- All (state name, decision name) pairs of node-local decisions. -/
def statePairs : List (Str × RawState α) → List (Str × Str)
  | [] => []
  | (name, RawState.mk decs childs) :: rest =>
    decs.map (fun d => (name, d.1)) ++ statePairs childs ++ statePairs rest

lemma lookupAssoc_isSome_iff : ∀ (m : List (Str × α)) (k : Str),
    (lookupAssoc m k).isSome = true ↔ k ∈ keysOf m
  | [], k => by simp [lookupAssoc, keysOf]
  | (k0, v) :: rest, k => by
    by_cases h : k0 = k
    · subst h
      rw [lookupAssoc, if_pos rfl]
      constructor
      · intro _
        exact List.mem_cons_self k0 (keysOf rest)
      · intro _
        rfl
    · rw [lookupAssoc, if_neg h, lookupAssoc_isSome_iff rest k]
      show k ∈ keysOf rest ↔ k ∈ k0 :: keysOf rest
      constructor
      · exact fun hm => List.mem_cons_of_mem _ hm
      · intro hm
        rcases List.mem_cons.mp hm with he | hm2
        · exact absurd he.symm h
        · exact hm2

lemma keysOf_append (a b : List (Str × α)) : keysOf (a ++ b) = keysOf a ++ keysOf b :=
  List.map_append _ _ _

lemma insertLocals_spec (name : Str) :
    ∀ (decs merged : List (Str × α)), (keysOf merged).Nodup →
      (∀ m, insertLocals name merged decs = Except.ok m →
          m = merged ++ decs ∧ (keysOf merged ++ keysOf decs).Nodup)
        ∧ (∀ e, insertLocals name merged decs = Except.error e →
            2 ≤ (keysOf merged ++ keysOf decs).count e.dname ∧ e.state = name
              ∧ e.dname ∈ keysOf decs)
        ∧ ((keysOf merged ++ keysOf decs).Nodup →
            ∃ m, insertLocals name merged decs = Except.ok m)
  | [], merged, hm => by
    refine ⟨?_, ?_, ?_⟩
    · intro m hok
      simp only [insertLocals, Except.ok.injEq] at hok
      subst hok
      exact ⟨by simp, by simpa [keysOf] using hm⟩
    · intro e herr
      simp only [insertLocals] at herr
      exact Except.noConfusion herr
    · intro _
      exact ⟨merged, rfl⟩
  | (dname, dval) :: rest, merged, hm => by
    by_cases hl : (lookupAssoc merged dname).isSome = true
    · have hstep : insertLocals name merged ((dname, dval) :: rest)
          = Except.error ⟨dname, name⟩ := by
        show (if (lookupAssoc merged dname).isSome = true then Except.error ⟨dname, name⟩
              else insertLocals name (merged ++ [(dname, dval)]) rest)
            = Except.error ⟨dname, name⟩
        rw [if_pos hl]
      have hmem : dname ∈ keysOf merged := (lookupAssoc_isSome_iff merged dname).1 hl
      refine ⟨?_, ?_, ?_⟩
      · intro m hok
        rw [hstep] at hok
        exact Except.noConfusion hok
      · intro e herr
        rw [hstep] at herr
        have he : e = ⟨dname, name⟩ := by
          injection herr with h
          exact h.symm
        subst he
        refine ⟨?_, rfl, List.mem_cons_self _ _⟩
        show 2 ≤ (keysOf merged ++ keysOf ((dname, dval) :: rest)).count dname
        rw [List.count_append]
        have h1 : 0 < (keysOf merged).count dname := List.count_pos_iff.mpr hmem
        have h2 : 0 < (keysOf ((dname, dval) :: rest)).count dname := by
          show 0 < (dname :: keysOf rest).count dname
          simp [List.count_cons_self]
        omega
      · intro hnd
        exfalso
        have hdisj := (List.nodup_append.mp hnd).2.2
        exact hdisj hmem (List.mem_cons_self _ _)
    · have hl' : dname ∉ keysOf merged := fun hmem =>
        hl ((lookupAssoc_isSome_iff merged dname).2 hmem)
      have hstep : insertLocals name merged ((dname, dval) :: rest)
          = insertLocals name (merged ++ [(dname, dval)]) rest := by
        show (if (lookupAssoc merged dname).isSome = true then Except.error ⟨dname, name⟩
              else insertLocals name (merged ++ [(dname, dval)]) rest)
            = insertLocals name (merged ++ [(dname, dval)]) rest
        rw [if_neg hl]
      have hm' : (keysOf (merged ++ [(dname, dval)])).Nodup := by
        rw [keysOf_append]
        exact List.Nodup.append hm (List.nodup_singleton _)
          (List.disjoint_singleton.mpr hl')
      have IH := insertLocals_spec name rest (merged ++ [(dname, dval)]) hm'
      have hkeys : keysOf (merged ++ [(dname, dval)]) ++ keysOf rest
          = keysOf merged ++ keysOf ((dname, dval) :: rest) := by
        rw [keysOf_append]
        show (keysOf merged ++ [dname]) ++ keysOf rest
            = keysOf merged ++ dname :: keysOf rest
        simp
      refine ⟨?_, ?_, ?_⟩
      · intro m hok
        rw [hstep] at hok
        obtain ⟨hval, hnd⟩ := IH.1 m hok
        refine ⟨by rw [hval]; simp, ?_⟩
        rw [← hkeys]
        exact hnd
      · intro e herr
        rw [hstep] at herr
        obtain ⟨hcount, hst, hmem2⟩ := IH.2.1 e herr
        refine ⟨?_, hst, List.mem_cons_of_mem _ hmem2⟩
        rw [← hkeys]
        exact hcount
      · intro hnd
        rw [hstep]
        exact IH.2.2 (by rw [hkeys]; exact hnd)

lemma localNames_cons (name : Str) (decs : List (Str × α))
    (childs rest : List (Str × RawState α)) :
    localNames ((name, RawState.mk decs childs) :: rest)
      = keysOf decs ++ localNames childs ++ localNames rest := by
  simp [localNames]

lemma localDecs_cons (name : Str) (decs : List (Str × α))
    (childs rest : List (Str × RawState α)) :
    localDecs ((name, RawState.mk decs childs) :: rest)
      = decs ++ localDecs childs ++ localDecs rest := by
  simp [localDecs]

lemma statePairs_cons (name : Str) (decs : List (Str × α))
    (childs rest : List (Str × RawState α)) :
    statePairs ((name, RawState.mk decs childs) :: rest)
      = decs.map (fun d => (name, d.1)) ++ statePairs childs ++ statePairs rest := by
  simp [statePairs]

lemma keysOf_localDecs : ∀ l : List (Str × RawState α), keysOf (localDecs l) = localNames l
  | [] => by simp [localDecs, localNames, keysOf]
  | (name, RawState.mk decs childs) :: rest => by
    rw [localDecs_cons, localNames_cons, keysOf_append, keysOf_append,
      keysOf_localDecs childs, keysOf_localDecs rest]

lemma nodup_of_append_sub {l1 l2 l3 : List Str} (h : (l1 ++ (l2 ++ l3)).Nodup) :
    (l1 ++ l2).Nodup := by
  have hs : (l1 ++ l2).Sublist (l1 ++ (l2 ++ l3)) :=
    List.Sublist.append_left (List.sublist_append_left l2 l3) l1
  exact List.Nodup.sublist hs h

lemma walkD_spec : ∀ (states : List (Str × RawState α)) (merged : List (Str × α)),
    (keysOf merged).Nodup →
      (∀ m, walkD merged states = Except.ok m →
          m = merged ++ localDecs states ∧ (keysOf merged ++ localNames states).Nodup)
        ∧ (∀ e, walkD merged states = Except.error e →
            2 ≤ (keysOf merged ++ localNames states).count e.dname
              ∧ (e.state, e.dname) ∈ statePairs states)
        ∧ ((keysOf merged ++ localNames states).Nodup →
            ∃ m, walkD merged states = Except.ok m)
  | [], merged, hm => by
    refine ⟨?_, ?_, ?_⟩
    · intro m hok
      simp only [walkD, Except.ok.injEq] at hok
      subst hok
      exact ⟨by simp [localDecs], by simpa [localNames] using hm⟩
    · intro e herr
      simp only [walkD] at herr
      exact Except.noConfusion herr
    · intro _
      exact ⟨merged, by simp [walkD]⟩
  | (name, RawState.mk decs childs) :: rest, merged, hm => by
    simp only [localNames_cons, localDecs_cons, statePairs_cons]
    have hIspec := insertLocals_spec name decs merged hm
    cases hins : insertLocals name merged decs with
    | error e0 =>
      have hw : walkD merged ((name, RawState.mk decs childs) :: rest) = Except.error e0 := by
        simp only [walkD, hins]
      obtain ⟨hcount0, hst0, hmem0⟩ := hIspec.2.1 e0 hins
      refine ⟨?_, ?_, ?_⟩
      · intro m hok
        rw [hw] at hok
        exact Except.noConfusion hok
      · intro e herr
        rw [hw] at herr
        have he : e0 = e := by
          injection herr
        subst he
        constructor
        · simp only [List.count_append] at hcount0 ⊢
          omega
        · apply List.mem_append_left
          apply List.mem_append_left
          obtain ⟨d, hd, hd1⟩ := List.mem_map.mp hmem0
          refine List.mem_map.mpr ⟨d, hd, ?_⟩
          rw [hst0, hd1]
      · intro hnd
        exfalso
        have hnd_n : (keysOf merged
            ++ (keysOf decs ++ (localNames childs ++ localNames rest))).Nodup := by
          simpa [List.append_assoc] using hnd
        obtain ⟨m, hok⟩ := hIspec.2.2 (nodup_of_append_sub hnd_n)
        rw [hins] at hok
        exact Except.noConfusion hok
    | ok m1 =>
      obtain ⟨hval1, hnd1⟩ := hIspec.1 m1 hins
      have hkeys1 : keysOf m1 = keysOf merged ++ keysOf decs := by
        rw [hval1, keysOf_append]
      have hIHc := walkD_spec childs m1 (by rw [hkeys1]; exact hnd1)
      cases hc : walkD m1 childs with
      | error e0 =>
        have hw : walkD merged ((name, RawState.mk decs childs) :: rest)
            = Except.error e0 := by
          simp only [walkD, hins, hc]
        obtain ⟨hcount0, hpair0⟩ := hIHc.2.1 e0 hc
        refine ⟨?_, ?_, ?_⟩
        · intro m hok
          rw [hw] at hok
          exact Except.noConfusion hok
        · intro e herr
          rw [hw] at herr
          have he : e0 = e := by
            injection herr
          subst he
          constructor
          · rw [hkeys1] at hcount0
            simp only [List.count_append] at hcount0 ⊢
            omega
          · apply List.mem_append_left
            exact List.mem_append_right _ hpair0
        · intro hnd
          exfalso
          obtain ⟨m, hok⟩ := hIHc.2.2 (by
            rw [hkeys1]
            have hnd_n : ((keysOf merged ++ keysOf decs)
                ++ (localNames childs ++ localNames rest)).Nodup := by
              simpa [List.append_assoc] using hnd
            exact nodup_of_append_sub (by simpa [List.append_assoc] using hnd_n))
          rw [hc] at hok
          exact Except.noConfusion hok
      | ok m2 =>
        obtain ⟨hval2, hnd2⟩ := hIHc.1 m2 hc
        have hkeys2 : keysOf m2 = keysOf m1 ++ localNames childs := by
          rw [hval2, keysOf_append, keysOf_localDecs]
        have hIHr := walkD_spec rest m2 (by rw [hkeys2]; exact hnd2)
        have hw : walkD merged ((name, RawState.mk decs childs) :: rest)
            = walkD m2 rest := by
          simp only [walkD, hins, hc]
        refine ⟨?_, ?_, ?_⟩
        · intro m hok
          rw [hw] at hok
          obtain ⟨hval3, hnd3⟩ := hIHr.1 m hok
          constructor
          · rw [hval3, hval2, hval1]
            simp [List.append_assoc]
          · rw [hkeys2, hkeys1] at hnd3
            simpa [List.append_assoc] using hnd3
        · intro e herr
          rw [hw] at herr
          obtain ⟨hcount3, hpair3⟩ := hIHr.2.1 e herr
          constructor
          · rw [hkeys2, hkeys1] at hcount3
            simp only [List.count_append] at hcount3 ⊢
            omega
          · exact List.mem_append_right _ hpair3
        · intro hnd
          rw [hw]
          apply hIHr.2.2
          rw [hkeys2, hkeys1]
          simpa [List.append_assoc] using hnd

/-- C9: `collect_decisions` succeeds exactly when the root-level decision
names together with all node-local decision names (in walk order) are
pairwise distinct; on success the global namespace is the root map followed
by every node-local decision, and on a duplicate it fails fatally with an
error naming a genuinely duplicated decision name together with the state
that owns it (the `print` + `sys.exit(1)` is modelled by the `Except.error`,
and `main` only runs validation and code generation after
`collect_decisions` returns). -/
theorem collect_decisions_duplicates_fatal {α : Type} (rootDecs : List (Str × α))
    (states : List (Str × RawState α)) (hroot : (keysOf rootDecs).Nodup) :
    (∀ m, collect_decisions rootDecs states = Except.ok m →
        m = rootDecs ++ localDecs states
          ∧ (keysOf rootDecs ++ localNames states).Nodup)
      ∧ (∀ e, collect_decisions rootDecs states = Except.error e →
          2 ≤ (keysOf rootDecs ++ localNames states).count e.dname
            ∧ (e.state, e.dname) ∈ statePairs states)
      ∧ ((keysOf rootDecs ++ localNames states).Nodup →
          ∃ m, collect_decisions rootDecs states = Except.ok m) :=
  walkD_spec states rootDecs hroot

/-- Witness for `collect_decisions_duplicates_fatal`: a root decision `X`
and one state `s` with a local decision `Y`. -/
theorem collect_decisions_duplicates_fatal_inst :
    (∀ m, collect_decisions [("X".toList, 0)]
          [("s".toList, RawState.mk [("Y".toList, 1)] [])] = Except.ok m →
        m = [("X".toList, 0)]
            ++ localDecs [("s".toList, RawState.mk [("Y".toList, 1)] [])]
          ∧ (keysOf [("X".toList, (0 : Nat))]
              ++ localNames [("s".toList, RawState.mk [("Y".toList, 1)] [])]).Nodup)
      ∧ (∀ e, collect_decisions [("X".toList, 0)]
            [("s".toList, RawState.mk [("Y".toList, 1)] [])] = Except.error e →
          2 ≤ (keysOf [("X".toList, (0 : Nat))]
              ++ localNames [("s".toList, RawState.mk [("Y".toList, 1)] [])]).count e.dname
            ∧ (e.state, e.dname)
              ∈ statePairs [("s".toList, RawState.mk [("Y".toList, 1)] [])])
      ∧ ((keysOf [("X".toList, (0 : Nat))]
            ++ localNames [("s".toList, RawState.mk [("Y".toList, 1)] [])]).Nodup →
          ∃ m, collect_decisions [("X".toList, 0)]
              [("s".toList, RawState.mk [("Y".toList, 1)] [])] = Except.ok m) :=
  collect_decisions_duplicates_fatal [("X".toList, 0)]
    [("s".toList, RawState.mk [("Y".toList, 1)] [])] (by decide)
